import Mathlib

/-!
Verification of the structural-symmetry scoring engine of the
YinYang universal four-track analyzer.

The definitions below are shallow embeddings of the Python sources:
  * `CE.*`  embeds `src/src/core_engine.py` (`FourDimNineHarmonyModel`),
  * `FD.*`  embeds `src/src/fd_jtms_v5.py` (`FDJTMS`),
  * `FT.*`  embeds `src/core/analyzers/four_track_analyzer.py`
    (`FourTrackAnalyzer`) together with
    `src/core/analyzers/base_analyzer.py` (`BaseAnalyzer.validate_input`).

Digits are natural numbers; every call site in the repository feeds the
engine digits in `[0,9]`.  Ratios are rationals; Python's float division
`a / b` on the small integer counts involved is embedded as exact
division in `ℚ`, and the `0/0 = 0` convention of the source
(`x if total > 0 else 0`) is embedded by an explicit `if`.
-/

namespace YY

/-- The eight-state encoder of `core_engine.get_state_id` and
`fd_jtms_v5.state_id`: the dictionary `(1,1,1) ↦ 1 … (0,0,0) ↦ 8`,
with `dict.get(bits, 0)` returning the sentinel `0` on any tuple that
is not one of the eight binary triples. -/
def stateId (bits : ℕ × ℕ × ℕ) : ℕ :=
  if bits = (1, 1, 1) then 1
  else if bits = (1, 1, 0) then 2
  else if bits = (1, 0, 1) then 3
  else if bits = (1, 0, 0) then 4
  else if bits = (0, 1, 1) then 5
  else if bits = (0, 1, 0) then 6
  else if bits = (0, 0, 1) then 7
  else if bits = (0, 0, 0) then 8
  else 0

/-- Componentwise complement of a 3-bit tuple (`1-b` per bit). -/
def bitComplement (bits : ℕ × ℕ × ℕ) : ℕ × ℕ × ℕ :=
  (1 - bits.1, 1 - bits.2.1, 1 - bits.2.2)

/-- The eight binary triples, in the order of the encoder's table. -/
def allBitTriples : List (ℕ × ℕ × ℕ) :=
  [(1,1,1), (1,1,0), (1,0,1), (1,0,0), (0,1,1), (0,1,0), (0,0,1), (0,0,0)]

namespace CE

/-- The `small/large` attribute (`attributes[d][0]`) of `core_engine.py`
(the same table appears in `fd_jtms_v5.py`).  Digits above 9 never
reach the table (the Python dict would raise). -/
def attrS (d : ℕ) : ℕ :=
  match d with
  | 0 => 0 | 1 => 1 | 2 => 1 | 3 => 1 | 4 => 1
  | 5 => 1 | 6 => 1 | 7 => 1 | 8 => 0 | 9 => 0
  | _ => 0

/-- The `level` attribute (`attributes[d][1]`), an element of `{1..5}`. -/
def attrL (d : ℕ) : ℕ :=
  match d with
  | 0 => 5 | 1 => 1 | 2 => 2 | 3 => 3 | 4 => 4
  | 5 => 5 | 6 => 1 | 7 => 2 | 8 => 3 | 9 => 4
  | _ => 1

/-- The `up/down` attribute (`attributes[d][2]`). -/
def attrP (d : ℕ) : ℕ :=
  match d with
  | 0 => 0 | 1 => 1 | 2 => 1 | 3 => 1 | 4 => 0
  | 5 => 0 | 6 => 1 | 7 => 1 | 8 => 1 | 9 => 0
  | _ => 0

/-- The `odd/even` attribute (`attributes[d][3]`). -/
def attrO (d : ℕ) : ℕ :=
  match d with
  | 0 => 1 | 1 => 1 | 2 => 0 | 3 => 1 | 4 => 0
  | 5 => 1 | 6 => 1 | 7 => 0 | 8 => 1 | 9 => 0
  | _ => 0

/-- The 5×5 `ab_matrix` of `core_engine.py`/`fd_jtms_v5.py`,
indexed from 0 (the code indexes `[layer-1]`). -/
def abMatrix (i j : ℕ) : ℕ :=
  match i, j with
  | 0, 2 => 1 | 0, 3 => 1
  | 1, 2 => 1 | 1, 4 => 1
  | 2, 0 => 1 | 2, 1 => 1
  | 3, 0 => 1 | 3, 4 => 1
  | 4, 1 => 1 | 4, 3 => 1
  | _, _ => 0

/-- The three digits of a part (parts always have exactly 3 digits at
every call site; the default is never taken there). -/
def partTriple (part : List ℕ) : ℕ × ℕ × ℕ :=
  (part.getD 0 0, part.getD 1 0, part.getD 2 0)

/-- Embeds `get_size_bits`: the `s` attribute of each digit of a 3-digit part. -/
def sizeBits (part : List ℕ) : ℕ × ℕ × ℕ :=
  let t := partTriple part
  (attrS t.1, attrS t.2.1, attrS t.2.2)

/-- Embeds `get_position_bits`: the `p` attribute of each digit of a part. -/
def positionBits (part : List ℕ) : ℕ × ℕ × ℕ :=
  let t := partTriple part
  (attrP t.1, attrP t.2.1, attrP t.2.2)

/-- Embeds `get_parity_bits`: the `o` attribute of each digit of a part. -/
def parityBits (part : List ℕ) : ℕ × ℕ × ℕ :=
  let t := partTriple part
  (attrO t.1, attrO t.2.1, attrO t.2.2)

/-- Embeds `get_ab_bits`: the cyclic relation bits of the three layers of a
part, `(AB(l1,l2), AB(l2,l3), AB(l3,l1))`. -/
def abBits (part : List ℕ) : ℕ × ℕ × ℕ :=
  let t := partTriple part
  let l1 := attrL t.1
  let l2 := attrL t.2.1
  let l3 := attrL t.2.2
  (abMatrix (l1 - 1) (l2 - 1), abMatrix (l2 - 1) (l3 - 1), abMatrix (l3 - 1) (l1 - 1))

/-- Fuel-indexed worker for the fixed 12-digit partition.  The fuel is
only a structural-recursion device; `getBlocks` passes `seq.length`,
which always suffices. -/
def getBlocksN : ℕ → List ℕ → List (List ℕ)
  | 0, _ => []
  | fuel + 1, seq =>
    if seq.length < 12 then []
    else seq.take 12 :: getBlocksN fuel (seq.drop 12)

/-- Embeds `_get_blocks` of `core_engine.py` (also `get_forward_blocks` at
block size 12): the consecutive full 12-digit blocks
`seq[0:12], seq[12:24], …`, the trailing remainder discarded. -/
def getBlocks (seq : List ℕ) : List (List ℕ) :=
  getBlocksN seq.length seq

/-- Embeds `get_backward_blocks` at block size 12, and the block series
`_get_blocks(digits[::-1])` used by `calculate_Omega`: the sequence is
reversed in full first, then partitioned like the forward series. -/
def backwardBlocks (seq : List ℕ) : List (List ℕ) :=
  getBlocks seq.reverse

/-- Valid-pair count of one block in `calculate_R_for_dimension`: the
block splits into parts `[0:3],[3:6],[6:9],[9:12]`; part 1 pairs with
part 3 and part 2 with part 4 when both states are nonzero and sum
to 9. -/
def blockValid (f : List ℕ → ℕ × ℕ × ℕ) (block : List ℕ) : ℕ :=
  let s1 := stateId (f (block.take 3))
  let s3 := stateId (f ((block.drop 6).take 3))
  let s2 := stateId (f ((block.drop 3).take 3))
  let s4 := stateId (f ((block.drop 9).take 3))
  (if 0 < s1 ∧ 0 < s3 ∧ s1 + s3 = 9 then 1 else 0) +
    (if 0 < s2 ∧ 0 < s4 ∧ s2 + s4 = 9 then 1 else 0)

/-- Embeds `calculate_R_for_dimension`: the pairing success rate of one
dimension over a block series; each block contributes two pairing
attempts, and an empty series yields `0.0`. -/
def Rdim (blocks : List (List ℕ)) (f : List ℕ → ℕ × ℕ × ℕ) : ℚ :=
  if blocks = [] then 0
  else ((blocks.map (blockValid f)).sum : ℚ) / (2 * blocks.length)

/-- The four dimension extractors of `calculate_Omega`, in the order
the code iterates them (small/large, up/down, odd/even, AB). -/
def dimensionFns : List (List ℕ → ℕ × ℕ × ℕ) :=
  [sizeBits, positionBits, parityBits, abBits]

/-- The `ΔR` of one dimension in `calculate_Omega`:
`|R_forward − R_backward|` with the backward series taken from the
fully reversed sequence. -/
def deltaR (digits : List ℕ) (f : List ℕ → ℕ × ℕ × ℕ) : ℚ :=
  |Rdim (getBlocks digits) f - Rdim (backwardBlocks digits) f|

/-- Embeds `sum(d*d for d in delta_R_values.values())` of `calculate_Omega`:
the sum of the squared `ΔR` of the four dimensions.  The code's
`raw_omega` is the real square root of this value, and the reported
`Omega` is `raw_omega * omega_amplifier`. -/
def deltaSquares (digits : List ℕ) : ℚ :=
  (dimensionFns.map (fun f => deltaR digits f * deltaR digits f)).sum

/-- The constant `omega_amplifier = 1.5` of `core_engine.py`: the reported `Omega`
is the raw square root multiplied by this factor. -/
def omegaAmplifier : ℚ := 3 / 2

end CE

namespace FD

/-- Embeds `windows` of `fd_jtms_v5.py`: the sliding windows
`digits[i:i+size]` for `i in range(0, len-size+1, step)`; empty when
the sequence is shorter than one window.  Every call site uses
`size = 12, step = 5`. -/
def windows (digits : List ℕ) (size step : ℕ) : List (List ℕ) :=
  if digits.length < size then []
  else (List.range' 0 ((digits.length - size) / step + 1) step).map
    (fun i => (digits.drop i).take size)

/-- Per-window `(valid, total)` contribution in `R_value`: windows not
of length 12 are skipped; each of the two part pairings counts one
attempt when both states are nonzero, valid when they sum to 9. -/
def windowCounts (f : List ℕ → ℕ × ℕ × ℕ) (w : List ℕ) : ℕ × ℕ :=
  if w.length = 12 then
    let s1 := stateId (f (w.take 3))
    let s2 := stateId (f ((w.drop 3).take 3))
    let s3 := stateId (f ((w.drop 6).take 3))
    let s4 := stateId (f ((w.drop 9).take 3))
    ((if s1 ≠ 0 ∧ s3 ≠ 0 ∧ s1 + s3 = 9 then 1 else 0) +
       (if s2 ≠ 0 ∧ s4 ≠ 0 ∧ s2 + s4 = 9 then 1 else 0),
     (if s1 ≠ 0 ∧ s3 ≠ 0 then 1 else 0) + (if s2 ≠ 0 ∧ s4 ≠ 0 then 1 else 0))
  else (0, 0)

/-- Embeds `R_value`: accumulated valid/total counts over the window list,
with `valid / total if total > 0 else 0.0`. -/
def Rvalue (ws : List (List ℕ)) (f : List ℕ → ℕ × ℕ × ℕ) : ℚ :=
  let valid := (ws.map (fun w => (windowCounts f w).1)).sum
  let total := (ws.map (fun w => (windowCounts f w).2)).sum
  if total = 0 then 0 else (valid : ℚ) / total

/-- Embeds `ab_bits` of `fd_jtms_v5.py`: as `core_engine.get_ab_bits` but
guarded, returning `(0,0,0)` when the part does not have 3 digits. -/
def abBits (part : List ℕ) : ℕ × ℕ × ℕ :=
  if part.length ≠ 3 then (0, 0, 0) else CE.abBits part

/-- The four dimension extractors of `FDJTMS.analyze`, in iteration
order (the first three tables are identical to `core_engine.py`). -/
def dimensionFns : List (List ℕ → ℕ × ℕ × ℕ) :=
  [CE.sizeBits, CE.positionBits, CE.parityBits, abBits]

/-- Forward `R` of one dimension in `FDJTMS.analyze`: windows of the
original sequence, size 12, step 5. -/
def Rforward (digits : List ℕ) (f : List ℕ → ℕ × ℕ × ℕ) : ℚ :=
  Rvalue (windows digits 12 5) f

/-- Backward `R` of one dimension in `FDJTMS.analyze`: windows of the
fully reversed sequence, size 12, step 5. -/
def Rbackward (digits : List ℕ) (f : List ℕ → ℕ × ℕ × ℕ) : ℚ :=
  Rvalue (windows digits.reverse 12 5) f

/-- One dimension's `delta = abs(Rf - Rb)` in `FDJTMS.analyze`. -/
def deltaR (digits : List ℕ) (f : List ℕ → ℕ × ℕ × ℕ) : ℚ :=
  |Rforward digits f - Rbackward digits f|

/-- The accumulated `delta_squares` of `FDJTMS.analyze`; the code's
`Omega` is the real square root of this value. -/
def deltaSquares (digits : List ℕ) : ℚ :=
  (dimensionFns.map (fun f => deltaR digits f * deltaR digits f)).sum

/-- The calibrated benchmark thresholds of `FDJTMS.__init__`
(`self.benchmark`), carried as configuration of the classifier. -/
structure Benchmark where
  weakThreshold : ℚ
  strongThreshold : ℚ

/-- The default benchmark of `fd_jtms_v5.py`:
`weak_threshold = 0.040158`, `strong_threshold = 0.060237`. -/
def defaultBenchmark : Benchmark :=
  { weakThreshold := 40158 / 1000000, strongThreshold := 60237 / 1000000 }

/-- The structure classification of `FDJTMS.analyze`: the computed
`Omega` scalar compared against the two benchmark thresholds. -/
def structureOf (b : Benchmark) (omega : ℚ) : String :=
  if omega < b.weakThreshold then "随机"
  else if omega < b.strongThreshold then "有序"
  else "高度有序"

end FD

namespace FT

/-- The four attribute dimensions of `four_track_analyzer.py`, in the
iteration order of `_process_window`. -/
inductive Dim where
  | smallLarge
  | upDown
  | oddEven
  | abRelation
deriving DecidableEq

/-- Embeds `number_attributes` of `four_track_analyzer.py`: each digit's four
binary attributes (note `ab_relation` is a per-digit bit here, unlike
the derived relation of `core_engine.py`). -/
def numberAttributes (d : ℕ) (dim : Dim) : ℕ :=
  match d, dim with
  | 0, _ => 0
  | 1, _ => 1
  | 2, .oddEven => 0 | 2, _ => 1
  | 3, _ => 1
  | 4, .upDown => 0 | 4, .oddEven => 0 | 4, _ => 1
  | 5, .upDown => 0 | 5, .abRelation => 0 | 5, _ => 1
  | 6, .oddEven => 0 | 6, .abRelation => 0 | 6, _ => 1
  | 7, .abRelation => 0 | 7, _ => 1
  | 8, .smallLarge => 0 | 8, .oddEven => 0 | 8, .abRelation => 0 | 8, _ => 1
  | 9, .smallLarge => 0 | 9, .upDown => 0 | 9, _ => 1
  | _, _ => 0

/-- Embeds `_binary_to_state_id`: the `state_encoding` dictionary on a list of
binary digits, with default `1` both for a length other than 3 and for
a key missing from the table. -/
def binaryToStateId (bits : List ℕ) : ℕ :=
  if bits.length ≠ 3 then 1
  else if bits = [1, 1, 1] then 1
  else if bits = [1, 1, 0] then 2
  else if bits = [1, 0, 1] then 3
  else if bits = [1, 0, 0] then 4
  else if bits = [0, 1, 1] then 5
  else if bits = [0, 1, 0] then 6
  else if bits = [0, 0, 1] then 7
  else if bits = [0, 0, 0] then 8
  else 1

/-- Embeds `bagua_pairing`: the dictionary `{1:8, …, 8:1}`; `dict.get` yields
`none` outside `{1..8}`. -/
def baguaPairing (s : ℕ) : Option ℕ :=
  if 1 ≤ s ∧ s ≤ 8 then some (9 - s) else none

/-- The four tracks of `FourTrackAnalyzer`. -/
inductive Track where
  | t1
  | t2
  | t3
  | t4
deriving DecidableEq

/-- Embeds `track_mappings` for tracks 2–4: the digit-to-symbol alphabets.
Track 1 has no symbol alphabet; its row is never consulted by the
source and maps to a placeholder. -/
def trackSymbol (tr : Track) (d : ℕ) : Char :=
  match tr, d with
  | .t2, 0 => 'E' | .t2, 1 => 'A' | .t2, 2 => 'B' | .t2, 3 => 'C' | .t2, 4 => 'D'
  | .t2, 5 => 'D' | .t2, 6 => 'C' | .t2, 7 => 'B' | .t2, 8 => 'A' | .t2, _ => 'E'
  | .t3, 0 => '戊' | .t3, 1 => '甲' | .t3, 2 => '乙' | .t3, 3 => '丙' | .t3, 4 => '丁'
  | .t3, 5 => '戊' | .t3, 6 => '丁' | .t3, 7 => '丙' | .t3, 8 => '乙' | .t3, _ => '甲'
  | .t4, 0 => '癸' | .t4, 1 => '己' | .t4, 2 => '庚' | .t4, 3 => '辛' | .t4, 4 => '壬'
  | .t4, 5 => '庚' | .t4, 6 => '辛' | .t4, 7 => '壬' | .t4, 8 => '己' | .t4, _ => '癸'
  | .t1, _ => '?'

/-- Embeds `yinyang_classifications[track]['yang']` for tracks 2–4. -/
def yangSet (tr : Track) : List Char :=
  match tr with
  | .t1 => []
  | .t2 => ['A', 'C', 'E']
  | .t3 => ['甲', '丙', '戊']
  | .t4 => ['己', '辛', '癸']

/-- Embeds `yinyang_classifications[track]['yin']` for tracks 2–4. -/
def yinSet (tr : Track) : List Char :=
  match tr with
  | .t1 => []
  | .t2 => ['B', 'D']
  | .t3 => ['乙', '丁']
  | .t4 => ['庚', '壬']

/-- A `{valid_pairs, total_pairs, pair_ratio}` record. -/
structure PairRes where
  valid : ℕ
  total : ℕ
  rat : ℚ
deriving DecidableEq

/-- The all-zero `PairRes` of the source's zero-filled dictionaries. -/
def zeroPair : PairRes := ⟨0, 0, 0⟩

/-- Result record of `_analyze_global_digit_pairs`; `rem` is the final
multiset of unconsumed digit counts (the source's `remaining_digits`),
from which its `unpaired` dictionary is read off. -/
structure GlobalRes where
  valid : ℕ
  total : ℕ
  rat : ℚ
  rem : ℕ → ℕ

/-- The all-zero `GlobalRes` used by the zero-filled dictionaries. -/
def zeroGlobal : GlobalRes := ⟨0, 0, 0, fun _ => 0⟩

/-- The ordered complementary-pair rule lists of
`_analyze_global_digit_pairs` (digit pairs only; the symbol and
polarity labels attached to each rule do not affect the counts). -/
def pairRules (tr : Track) : List (ℕ × ℕ) :=
  match tr with
  | .t1 => []
  | .t2 => [(1,8), (8,1), (2,7), (7,2), (3,6), (6,3), (4,5), (5,4), (9,0), (0,9)]
  | .t3 => [(1,9), (9,1), (2,8), (8,2), (3,7), (7,3), (4,6), (6,4), (5,0), (0,5)]
  | .t4 => [(1,8), (8,1), (2,5), (5,2), (3,6), (6,3), (4,7), (7,4), (9,0), (0,9)]

/-- One iteration of the pairing loop of
`_analyze_global_digit_pairs`: the number of pairs formable by the
rule is `remaining // 2` for an equal-digit rule and
`min(remaining[d1], remaining[d2])` otherwise; when positive it is
added to `valid_pairs` and the consumed counts are subtracted
(`Function.update` is the Counter assignment). -/
def applyRule (st : ℕ × (ℕ → ℕ)) (r : ℕ × ℕ) : ℕ × (ℕ → ℕ) :=
  let rem := st.2
  let pc := if r.1 = r.2 then rem r.1 / 2 else min (rem r.1) (rem r.2)
  if 0 < pc then
    if r.1 = r.2 then
      (st.1 + pc, Function.update rem r.1 (rem r.1 - pc * 2))
    else
      (st.1 + pc,
        Function.update (Function.update rem r.1 (rem r.1 - pc)) r.2 (rem r.2 - pc))
  else st

/-- The full pairing loop over a rule list. -/
def runRules (rules : List (ℕ × ℕ)) (st : ℕ × (ℕ → ℕ)) : ℕ × (ℕ → ℕ) :=
  rules.foldl applyRule st

/-- Embeds `Counter(digits)`: the multiset of digit occurrence counts. -/
def countOf (digits : List ℕ) : ℕ → ℕ :=
  fun d => digits.count d

/-- Embeds `_analyze_global_digit_pairs`: global whole-sequence pairing for
tracks 2–4 (`track1` falls to the all-zero else-branch);
`total_pairs = len(digits) // 2` and a zero total yields ratio 0. -/
def globalDigitPairs (digits : List ℕ) (tr : Track) : GlobalRes :=
  match tr with
  | .t1 => zeroGlobal
  | _ =>
    let st := runRules (pairRules tr) (0, countOf digits)
    let total := digits.length / 2
    { valid := st.1
      total := total
      rat := if total = 0 then 0 else (st.1 : ℚ) / total
      rem := st.2 }

/-- Embeds `_is_valid_digit_pair`: the adjacent-pair tables (track 1 has no
digit pairing and always answers false). -/
def isValidDigitPair (tr : Track) (d1 d2 : ℕ) : Bool :=
  match tr with
  | .t1 => false
  | .t2 => (pairRules .t2).contains (d1, d2)
  | .t3 => (pairRules .t3).contains (d1, d2)
  | .t4 => (pairRules .t4).contains (d1, d2)

/-- The consecutive disjoint digit pairs
`(digits[0], digits[1]), (digits[2], digits[3]), …` scanned by
`_calculate_digit_pairs` (`for i in range(0, len-1, 2)`). -/
def adjacentPairs : List ℕ → List (ℕ × ℕ)
  | a :: b :: rest => (a, b) :: adjacentPairs rest
  | _ => []

/-- Embeds `_calculate_digit_pairs`: adjacent-pair counting over the whole
sequence. -/
def calculateDigitPairs (digits : List ℕ) (tr : Track) : PairRes :=
  let ps := adjacentPairs digits
  let valid := ps.countP (fun p => isValidDigitPair tr p.1 p.2)
  { valid := valid
    total := ps.length
    rat := if ps.length = 0 then 0 else (valid : ℚ) / ps.length }

/-- Extended rational: the value of the Python float field
`yinyang['ratio']`, which is `float('inf')` when `yin_count == 0`. -/
inductive ExtQ where
  | val : ℚ → ExtQ
  | inf
deriving DecidableEq

/-- The `yinyang` record of `_calculate_yinyang`. -/
structure Yinyang where
  yang : ℕ
  yin : ℕ
  rat : ExtQ
  yangPercent : ℚ
deriving DecidableEq

/-- The all-zero `yinyang` dictionary of the short-sequence branch. -/
def zeroYinyang : Yinyang := ⟨0, 0, .val 0, 0⟩

/-- The yang count of `_calculate_yinyang`: digits `1..7` for
track 1, symbols of the yang class for the alphabet tracks. -/
def yangCount (seq : List ℕ) (tr : Track) : ℕ :=
  match tr with
  | .t1 => seq.countP (fun d => decide (1 ≤ d ∧ d ≤ 7))
  | _ => (seq.map (trackSymbol tr)).countP (fun s => (yangSet tr).contains s)

/-- The yin count of `_calculate_yinyang`: the remaining digits for
track 1, symbols of the yin class for the alphabet tracks. -/
def yinCount (seq : List ℕ) (tr : Track) : ℕ :=
  match tr with
  | .t1 => seq.length - yangCount seq .t1
  | _ => (seq.map (trackSymbol tr)).countP (fun s => (yinSet tr).contains s)

/-- Embeds `_calculate_yinyang`: the polarity distribution.
`ratio = yang/yin` is `float('inf')` when `yin == 0`, and
`yang_percent` is 0 on the empty sequence. -/
def calcYinyang (seq : List ℕ) (tr : Track) : Yinyang :=
  { yang := yangCount seq tr
    yin := yinCount seq tr
    rat :=
      if 0 < yinCount seq tr then .val ((yangCount seq tr : ℚ) / yinCount seq tr)
      else .inf
    yangPercent :=
      if seq.length = 0 then 0 else (yangCount seq tr : ℚ) / seq.length }

/-- The per-track result dictionary of `_analyze_track`.  The
`global_digit_pairs` key is modelled as an `Option` because
`_calculate_symmetry` tests its presence with `in`; `_analyze_track`
itself puts the key in every branch (zero-filled for track 1). -/
structure TrackResult where
  windowCount : ℕ
  symbolPairs : PairRes
  digitPairs : PairRes
  globalPairs : Option GlobalRes
  yinyang : Yinyang

/-- Embeds `_generate_track1_states`: the attribute bits of a sub-sequence in
digit order, encoded through `_binary_to_state_id`. -/
def track1State (sub : List ℕ) (dim : Dim) : ℕ :=
  binaryToStateId (sub.map (fun n => numberAttributes n dim))

/-- Per-window `(valid, total)` of the track 1 nine-sum pairing
(`_process_window` + `_calculate_nine_sum_pairs`): for each of the
four dimensions, part 1 pairs with part 3 and part 2 with part 4 via
`bagua_pairing`. -/
def track1WindowCounts (w : List ℕ) : ℕ × ℕ :=
  let dims : List Dim := [.smallLarge, .upDown, .oddEven, .abRelation]
  let p1 := w.take 3
  let p2 := (w.drop 3).take 3
  let p3 := (w.drop 6).take 3
  let p4 := (w.drop 9).take 3
  ((dims.map (fun dim =>
      (if baguaPairing (track1State p1 dim) = some (track1State p3 dim) then 1 else 0) +
        (if baguaPairing (track1State p2 dim) = some (track1State p4 dim) then 1 else 0))).sum,
   2 * dims.length)

/-- The stride-1 full windows of the track 1 branch of
`_analyze_track`: `sequence[i:i+12]` for `i in range(0, len-11+1)`,
keeping only windows of length 12. -/
def track1Windows (seq : List ℕ) : List (List ℕ) :=
  ((List.range (seq.length - 10)).map (fun i => (seq.drop i).take 12)).filter
    (fun w => w.length = 12)

/-- The accumulated `symbol_valid` of the track 1 branch of
`_analyze_track`. -/
def track1Valid (seq : List ℕ) : ℕ :=
  ((track1Windows seq).map (fun w => (track1WindowCounts w).1)).sum

/-- The accumulated `symbol_total` of the track 1 branch of
`_analyze_track`. -/
def track1Total (seq : List ℕ) : ℕ :=
  ((track1Windows seq).map (fun w => (track1WindowCounts w).2)).sum

/-- Embeds `_analyze_track`: sequences shorter than 2 digits yield the
all-zero record; track 1 accumulates the nine-sum window pairing plus
its direct digit pairing; tracks 2–4 carry only the global pairing.
Every branch computes the polarity distribution and stores a
`global_digit_pairs` entry (zero-filled except for tracks 2–4). -/
def analyzeTrack (seq : List ℕ) (tr : Track) : TrackResult :=
  if seq.length < 2 then
    { windowCount := 0
      symbolPairs := zeroPair
      digitPairs := zeroPair
      globalPairs := some zeroGlobal
      yinyang := zeroYinyang }
  else
    match tr with
    | .t1 =>
      { windowCount := (track1Windows seq).length
        symbolPairs :=
          ⟨track1Valid seq, track1Total seq,
            if track1Total seq = 0 then 0
            else (track1Valid seq : ℚ) / track1Total seq⟩
        digitPairs := calculateDigitPairs seq .t1
        globalPairs := some zeroGlobal
        yinyang := calcYinyang seq .t1 }
    | _ =>
      { windowCount := 0
        symbolPairs := zeroPair
        digitPairs := zeroPair
        globalPairs := some (globalDigitPairs seq tr)
        yinyang := calcYinyang seq tr }

/-- The similarity clamp of `_calculate_symmetry`:
`1 - diff if diff <= 1 else 0`. -/
def simClamp (d : ℚ) : ℚ :=
  if d ≤ 1 then 1 - d else 0

/-- Embeds `result.get` of the optional global pair ratio, default 0. -/
def optGlobalRat (o : Option GlobalRes) : ℚ :=
  match o with
  | some g => g.rat
  | none => 0

/-- The symmetry record of `_calculate_symmetry`. -/
structure Symmetry where
  pairRatioDiff : ℚ
  pairRatioSim : ℚ
  globalRatioDiff : ℚ
  globalRatioSim : ℚ
  yangPercentDiff : ℚ
  yangPercentSim : ℚ
  overallSymmetry : ℚ
deriving DecidableEq

/-- Embeds `_calculate_symmetry`: similarity of the forward and backward
symbol-pairing ratios, global-pairing ratios and yang percentages;
`overall_symmetry` averages three terms when both results carry a
`global_digit_pairs` key and two terms otherwise. -/
def calcSymmetry (f b : TrackResult) : Symmetry :=
  let pd := |f.symbolPairs.rat - b.symbolPairs.rat|
  let ps := simClamp pd
  let gd := |optGlobalRat f.globalPairs - optGlobalRat b.globalPairs|
  let gs := simClamp gd
  let yd := |f.yinyang.yangPercent - b.yinyang.yangPercent|
  let ys := simClamp yd
  { pairRatioDiff := pd
    pairRatioSim := ps
    globalRatioDiff := gd
    globalRatioSim := gs
    yangPercentDiff := yd
    yangPercentSim := ys
    overallSymmetry :=
      if f.globalPairs.isSome ∧ b.globalPairs.isSome then (ps + gs + ys) / 3
      else (ps + ys) / 2 }

/-- Embeds `BaseAnalyzer.validate_input`: every element must be a digit in
`[0,9]` and the sequence must be non-empty. -/
def validateInput (digits : List ℕ) : Bool :=
  digits.all (fun d => d ≤ 9) && !digits.isEmpty

/-- Forward result, backward result (of the fully reversed sequence)
and their symmetry, as assembled per track by `analyze`. -/
structure TrackAnalysis where
  forward : TrackResult
  backward : TrackResult
  symmetry : Symmetry

/-- One track's entry of `FourTrackAnalyzer.analyze`. -/
def analyzeOneTrack (digits : List ℕ) (tr : Track) : TrackAnalysis :=
  let f := analyzeTrack digits tr
  let b := analyzeTrack digits.reverse tr
  { forward := f, backward := b, symmetry := calcSymmetry f b }

/-- Embeds `FourTrackAnalyzer.analyze`, restricted to the per-track results:
input failing `validate_input` produces the error response
`输入验证失败` instead of zeroed results. -/
def analyze (digits : List ℕ) :
    Except String (Track → TrackAnalysis) :=
  if validateInput digits then .ok (fun tr => analyzeOneTrack digits tr)
  else .error "输入验证失败"

/-- The forward half of one track's entry in
`_generate_digital_fingerprint`: the numeric fields copied from the
forward track result (the `yinyang['ratio']` float is copied verbatim
into `yinyang_ratio`). -/
structure FingerprintForward where
  pairRat : ℚ
  yinyangRat : ExtQ
  yangPercent : ℚ
  windowCount : ℕ
  globalPairRat : ℚ
deriving DecidableEq

/-- Builds the forward fingerprint entry of a track from its forward
analysis result, exactly as `_generate_digital_fingerprint` reads the
result dictionary. -/
def fingerprintForward (f : TrackResult) : FingerprintForward :=
  { pairRat := f.symbolPairs.rat
    yinyangRat := f.yinyang.rat
    yangPercent := f.yinyang.yangPercent
    windowCount := f.windowCount
    globalPairRat := optGlobalRat f.globalPairs }

end FT

namespace Spec

/-- Spec-side description of one rule's pair count (§4.3 step 3 of the
specification): with the current multiset of remaining counts, an
equal-digit rule forms `floor(remaining/2)` pairs and a distinct-digit
rule forms `min(remaining[d1], remaining[d2])` pairs. -/
def rulePairs (rem : ℕ → ℕ) (r : ℕ × ℕ) : ℕ :=
  if r.1 = r.2 then rem r.1 / 2 else min (rem r.1) (rem r.2)

/-- Spec-side consumption of one rule: two units per pair for an
equal-digit rule, one unit from each side otherwise. -/
def consume (rem : ℕ → ℕ) (r : ℕ × ℕ) : ℕ → ℕ :=
  let pc := rulePairs rem r
  if r.1 = r.2 then Function.update rem r.1 (rem r.1 - pc * 2)
  else Function.update (Function.update rem r.1 (rem r.1 - pc)) r.2 (rem r.2 - pc)

/-- Spec-side `valid_pairs`: the rules scanned in declared order, each
rule's count taken on the multiset remaining after the earlier rules. -/
def validPairs : List (ℕ × ℕ) → (ℕ → ℕ) → ℕ
  | [], _ => 0
  | r :: rs, rem => rulePairs rem r + validPairs rs (consume rem r)

end Spec

/-- A 24-digit sequence whose backward block series differs from its
forward partition taken in reverse order. -/
def exSeq24 : List ℕ := 1 :: List.replicate 23 0

/-- A 15-digit sequence on which `core_engine.calculate_Omega` has
`delta_squares = 1/4`, hence a nonzero raw Omega. -/
def exSeq15 : List ℕ := [2, 1, 6, 1, 8, 7, 9, 5, 2, 5, 8, 9, 0, 4, 3]

/-- The first twelve digits of π, a track-1 window with pairing
success rate 1/8. -/
def exSeqPi : List ℕ := [3, 1, 4, 1, 5, 9, 2, 6, 5, 3, 5, 8]

/-- Twelve ones, a track-1 window with pairing success rate 0. -/
def exSeqOnes : List ℕ := List.replicate 12 1

/-- Yang membership of one digit under a track's polarity classes, as
classified by `_calculate_yinyang`: digits 1–7 for track 1, and
membership of the mapped symbol in the track's yang set otherwise. -/
def isYangDigit (tr : FT.Track) (d : ℕ) : Bool :=
  match tr with
  | .t1 => decide (1 ≤ d ∧ d ≤ 7)
  | _ => (FT.yangSet tr).contains (FT.trackSymbol tr d)

/-- The eight valid binary key lists of the `state_encoding` table of
`four_track_analyzer.py`. -/
def validBitLists : List (List ℕ) :=
  [[1,1,1], [1,1,0], [1,0,1], [1,0,0], [0,1,1], [0,1,0], [0,0,1], [0,0,0]]

/-- Claim C4: the 3-bit state encoding maps the eight tuples, in the
conventional order `(1,1,1) … (0,0,0)`, bijectively onto `1..8`; every
tuple and its bitwise complement encode to states summing to 9; and
the complementary state of each `s ∈ {1..8}` (the `bagua_pairing`
table) is exactly `9 - s`. -/
theorem c4_state_bijection :
    allBitTriples.map stateId = [1, 2, 3, 4, 5, 6, 7, 8] ∧
      allBitTriples.map (fun t => stateId t + stateId (bitComplement t)) =
        List.replicate 8 9 ∧
      (List.range' 1 8).map FT.baguaPairing =
        (List.range' 1 8).map (fun s => some (9 - s)) := by
  decide

/-- Claim C6: the structure classification compares Omega with the two
benchmark thresholds, whose default calibrated values are
`0.040158` and `0.060237`: strictly below the weak threshold is the
random-like label, between the thresholds the weak-structure label,
and at or above the strong threshold the strong-structure label. -/
theorem c6_classification :
    FD.defaultBenchmark.weakThreshold = 40158 / 1000000 ∧
      FD.defaultBenchmark.strongThreshold = 60237 / 1000000 ∧
      (∀ omega : ℚ, omega < FD.defaultBenchmark.weakThreshold →
        FD.structureOf FD.defaultBenchmark omega = "随机") ∧
      (∀ omega : ℚ, FD.defaultBenchmark.weakThreshold ≤ omega →
        omega < FD.defaultBenchmark.strongThreshold →
        FD.structureOf FD.defaultBenchmark omega = "有序") ∧
      (∀ omega : ℚ, FD.defaultBenchmark.strongThreshold ≤ omega →
        FD.structureOf FD.defaultBenchmark omega = "高度有序") := by
  refine ⟨rfl, rfl, ?_, ?_, ?_⟩
  · intro omega h
    simp [FD.structureOf, h]
  · intro omega h1 h2
    simp [FD.structureOf, h2, not_lt.mpr h1]
  · intro omega h
    have h1 : ¬ omega < FD.defaultBenchmark.weakThreshold := by
      refine not_lt.mpr (le_trans ?_ h)
      norm_num [FD.defaultBenchmark]
    simp [FD.structureOf, h1, not_lt.mpr h]

/-- Witness for C6: the three classification branches at the concrete
Omega values 0.01, 0.05 and 1. -/
theorem c6_classification_witness :
    ((1 : ℚ) / 100 < FD.defaultBenchmark.weakThreshold ∧
        FD.structureOf FD.defaultBenchmark (1 / 100) = "随机") ∧
      (FD.defaultBenchmark.weakThreshold ≤ 1 / 20 ∧
        (1 : ℚ) / 20 < FD.defaultBenchmark.strongThreshold ∧
        FD.structureOf FD.defaultBenchmark (1 / 20) = "有序") ∧
      (FD.defaultBenchmark.strongThreshold ≤ 1 ∧
        FD.structureOf FD.defaultBenchmark 1 = "高度有序") :=
  ⟨⟨by norm_num [FD.defaultBenchmark],
      c6_classification.2.2.1 _ (by norm_num [FD.defaultBenchmark])⟩,
    ⟨by norm_num [FD.defaultBenchmark], by norm_num [FD.defaultBenchmark],
      c6_classification.2.2.2.1 _ (by norm_num [FD.defaultBenchmark])
        (by norm_num [FD.defaultBenchmark])⟩,
    ⟨by norm_num [FD.defaultBenchmark],
      c6_classification.2.2.2.2 _ (by norm_num [FD.defaultBenchmark])⟩⟩

/-- Counterexample to claim C8: `_binary_to_state_id` of
`four_track_analyzer.py` maps the malformed inputs `[2,2,2]` (a
non-binary triple) and `[0,1]` (wrong length) to the default `1`,
which lies inside the valid StateId range `{1..8}` — it is neither a
sentinel outside the range nor an exception. -/
theorem c8_counterexample :
    FT.binaryToStateId [2, 2, 2] = 1 ∧
      1 ≤ FT.binaryToStateId [2, 2, 2] ∧ FT.binaryToStateId [2, 2, 2] ≤ 8 ∧
      FT.binaryToStateId [0, 1] = 1 ∧
      1 ≤ FT.binaryToStateId [0, 1] ∧ FT.binaryToStateId [0, 1] ≤ 8 := by
  decide

/-- Claim C8 as amended: the encoder is total over the eight valid
tuples in every variant; on malformed input, `core_engine.get_state_id`
and `fd_jtms_v5.state_id` return the sentinel `0` (outside `{1..8}`),
but `four_track_analyzer._binary_to_state_id` instead returns the
default `1`, a value inside the valid range. -/
theorem c8_encoder_amended :
    (∀ bs : List ℕ, bs ∈ validBitLists →
        1 ≤ FT.binaryToStateId bs ∧ FT.binaryToStateId bs ≤ 8) ∧
      (∀ t : ℕ × ℕ × ℕ, t ∈ allBitTriples → 1 ≤ stateId t ∧ stateId t ≤ 8) ∧
      (∀ t : ℕ × ℕ × ℕ, t ∉ allBitTriples → stateId t = 0) ∧
      (∀ bs : List ℕ, bs ∉ validBitLists → FT.binaryToStateId bs = 1) := by
  refine ⟨by decide, by decide, ?_, ?_⟩
  · intro t ht
    simp only [allBitTriples, List.mem_cons, List.not_mem_nil, or_false] at ht
    push_neg at ht
    obtain ⟨h1, h2, h3, h4, h5, h6, h7, h8⟩ := ht
    unfold stateId
    rw [if_neg h1, if_neg h2, if_neg h3, if_neg h4, if_neg h5, if_neg h6,
      if_neg h7, if_neg h8]
  · intro bs hbs
    simp only [validBitLists, List.mem_cons, List.not_mem_nil, or_false] at hbs
    push_neg at hbs
    obtain ⟨h1, h2, h3, h4, h5, h6, h7, h8⟩ := hbs
    unfold FT.binaryToStateId
    by_cases hlen : bs.length = 3
    · rw [if_neg (show ¬bs.length ≠ 3 by omega), if_neg h1, if_neg h2,
        if_neg h3, if_neg h4, if_neg h5, if_neg h6, if_neg h7, if_neg h8]
    · rw [if_pos hlen]

/-- The fuel argument of `CE.getBlocksN` is irrelevant once it covers
the sequence length. -/
theorem getBlocksN_congr :
    ∀ f1 f2 : ℕ, ∀ seq : List ℕ, seq.length ≤ f1 → seq.length ≤ f2 →
      CE.getBlocksN f1 seq = CE.getBlocksN f2 seq := by
  intro f1
  induction f1 with
  | zero =>
    intro f2 seq h1 h2
    cases f2 with
    | zero => rfl
    | succ m =>
      have hlen : seq.length < 12 := by omega
      simp [CE.getBlocksN, hlen]
  | succ n ih =>
    intro f2 seq h1 h2
    cases f2 with
    | zero =>
      have hlen : seq.length < 12 := by omega
      simp [CE.getBlocksN, hlen]
    | succ m =>
      by_cases hlen : seq.length < 12
      · simp [CE.getBlocksN, hlen]
      · have hdrop : (seq.drop 12).length ≤ n := by
          simp only [List.length_drop]; omega
        have hdrop2 : (seq.drop 12).length ≤ m := by
          simp only [List.length_drop]; omega
        simp only [CE.getBlocksN, if_neg hlen]
        rw [ih m (seq.drop 12) hdrop hdrop2]

/-- Short sequences yield no block regardless of fuel. -/
theorem getBlocksN_of_lt (fuel : ℕ) (seq : List ℕ) (h : seq.length < 12) :
    CE.getBlocksN fuel seq = [] := by
  cases fuel with
  | zero => rfl
  | succ n => simp [CE.getBlocksN, h]

/-- Unfolding equation of `CE.getBlocks`: the partition keeps the
first full 12-digit block and recurses on the remainder. -/
theorem getBlocks_eq (seq : List ℕ) :
    CE.getBlocks seq =
      if seq.length < 12 then []
      else seq.take 12 :: CE.getBlocks (seq.drop 12) := by
  by_cases hlen : seq.length < 12
  · rw [if_pos hlen]
    exact getBlocksN_of_lt seq.length seq hlen
  · rw [if_neg hlen]
    obtain ⟨n, hn⟩ : ∃ n, seq.length = n + 1 := ⟨seq.length - 1, by omega⟩
    have h : CE.getBlocks seq = CE.getBlocksN (n + 1) seq := by
      unfold CE.getBlocks; rw [hn]
    rw [h]
    simp only [CE.getBlocksN, if_neg hlen]
    have h1 : (seq.drop 12).length ≤ n := by
      simp only [List.length_drop]; omega
    unfold CE.getBlocks
    rw [getBlocksN_congr n (seq.drop 12).length (seq.drop 12) h1 le_rfl]

/-- Block `k` of the fixed partition is the slice
`seq[12k : 12k+12]`. -/
theorem getBlocks_get :
    ∀ (k : ℕ) (seq : List ℕ), k < (CE.getBlocks seq).length →
      (CE.getBlocks seq).get? k = some ((seq.drop (12 * k)).take 12) := by
  intro k
  induction k with
  | zero =>
    intro seq hk
    rw [getBlocks_eq] at hk ⊢
    by_cases hlen : seq.length < 12
    · simp [hlen] at hk
    · simp [hlen]
  | succ n ih =>
    intro seq hk
    rw [getBlocks_eq] at hk ⊢
    by_cases hlen : seq.length < 12
    · simp [hlen] at hk
    · simp only [if_neg hlen] at hk ⊢
      simp only [List.length_cons] at hk
      have hk2 : n < (CE.getBlocks (seq.drop 12)).length := by omega
      rw [List.get?_cons_succ, ih (seq.drop 12) hk2, List.drop_drop]
      have h12 : 12 + 12 * n = 12 * (n + 1) := by ring
      rw [h12]

/-- Claim C1: the backward block series is obtained by reversing the
whole sequence first and then partitioning: backward block `k` is
`reverse(S)[12k : 12k+12]`, the first backward block is
`reverse(S[N-12 : N])` when `N = len(S) ≥ 12`, and the series is not
the forward partition taken in reverse order (witnessed by a concrete
24-digit sequence). -/
theorem c1_backward_partition :
    (∀ (S : List ℕ) (k : ℕ), k < (CE.backwardBlocks S).length →
        (CE.backwardBlocks S).get? k = some ((S.reverse.drop (12 * k)).take 12)) ∧
      (∀ S : List ℕ, 12 ≤ S.length →
        (CE.backwardBlocks S).get? 0 = some ((S.drop (S.length - 12)).reverse)) ∧
      CE.backwardBlocks exSeq24 ≠ (CE.getBlocks exSeq24).reverse := by
  refine ⟨?_, ?_, by decide⟩
  · intro S k hk
    exact getBlocks_get k S.reverse hk
  · intro S hS
    have hlen : ¬S.reverse.length < 12 := by
      simp only [List.length_reverse]; omega
    have hne : 0 < (CE.backwardBlocks S).length := by
      unfold CE.backwardBlocks
      rw [getBlocks_eq, if_neg hlen]
      simp
    have h0 := getBlocks_get 0 S.reverse hne
    unfold CE.backwardBlocks
    rw [h0]
    have : S.reverse.take 12 = (S.drop (S.length - 12)).reverse :=
      List.take_reverse
    simp only [Nat.mul_zero, List.drop_zero]
    rw [this]

/-- Witness for C1: the block characterization and the first-block
contract at the concrete 24-digit sequence `exSeq24`. -/
theorem c1_backward_partition_witness :
    (0 < (CE.backwardBlocks exSeq24).length ∧
        (CE.backwardBlocks exSeq24).get? 0 =
          some ((exSeq24.reverse.drop (12 * 0)).take 12)) ∧
      (12 ≤ exSeq24.length ∧
        (CE.backwardBlocks exSeq24).get? 0 =
          some ((exSeq24.drop (exSeq24.length - 12)).reverse)) :=
  ⟨⟨by decide, c1_backward_partition.1 exSeq24 0 (by decide)⟩,
    ⟨by decide, c1_backward_partition.2.1 exSeq24 (by decide)⟩⟩

/-- Witness for C8 (amended): the valid tuple `(1,0,0)` and the
malformed inputs `(2,2,2)` and `[4,4,4]` at concrete values. -/
theorem c8_encoder_amended_witness :
    (([1, 0, 0] : List ℕ) ∈ validBitLists ∧
        1 ≤ FT.binaryToStateId [1, 0, 0] ∧ FT.binaryToStateId [1, 0, 0] ≤ 8) ∧
      (((2, 2, 2) : ℕ × ℕ × ℕ) ∉ allBitTriples ∧ stateId (2, 2, 2) = 0) ∧
      (([4, 4, 4] : List ℕ) ∉ validBitLists ∧ FT.binaryToStateId [4, 4, 4] = 1) :=
  ⟨⟨by decide, c8_encoder_amended.1 [1, 0, 0] (by decide)⟩,
    ⟨by decide, c8_encoder_amended.2.2.1 (2, 2, 2) (by decide)⟩,
    ⟨by decide, c8_encoder_amended.2.2.2 [4, 4, 4] (by decide)⟩⟩

/-- One step of the source's pairing loop agrees with the spec-side
rule description: the pair count is added and the consumption applied
(the source's `if pair_count > 0` guard is a no-op when the count is
zero). -/
theorem applyRule_eq (st : ℕ × (ℕ → ℕ)) (r : ℕ × ℕ) :
    (FT.applyRule st r).1 = st.1 + Spec.rulePairs st.2 r ∧
      (FT.applyRule st r).2 = Spec.consume st.2 r := by
  unfold FT.applyRule Spec.consume Spec.rulePairs
  by_cases heq : r.1 = r.2
  · simp only [if_pos heq]
    by_cases hpc : 0 < st.2 r.1 / 2
    · simp [hpc]
    · have h0 : st.2 r.1 / 2 = 0 := by omega
      simp [hpc, h0, Function.update_eq_self]
  · simp only [if_neg heq]
    by_cases hpc : 0 < min (st.2 r.1) (st.2 r.2)
    · simp [hpc]
    · have h0 : min (st.2 r.1) (st.2 r.2) = 0 := by omega
      simp [hpc, h0, Function.update_eq_self]

/-- The accumulated `valid_pairs` of the source's pairing loop equals
the spec-side in-order scan. -/
theorem runRules_eq :
    ∀ (rules : List (ℕ × ℕ)) (st : ℕ × (ℕ → ℕ)),
      (FT.runRules rules st).1 = st.1 + Spec.validPairs rules st.2 := by
  intro rules
  induction rules with
  | nil => intro st; simp [FT.runRules, Spec.validPairs]
  | cons r rs ih =>
    intro st
    have hstep := applyRule_eq st r
    show (FT.runRules rs (FT.applyRule st r)).1 = _
    rw [ih (FT.applyRule st r), hstep.1, hstep.2, Spec.validPairs]
    ring

/-- Claim C2: for each alphabet track, the global pairing result is
the in-order scan of the track's declared rule list over the digit
multiset — `min` of the two remaining counts for a distinct-digit
rule, half the remaining count for an equal-digit rule, consumed
before the next rule — with `total_pairs = N // 2` and the `0/0 = 0`
ratio convention. -/
theorem c2_global_pairing :
    ∀ digits : List ℕ,
      ((FT.globalDigitPairs digits .t2).valid =
          Spec.validPairs (FT.pairRules .t2) (FT.countOf digits) ∧
        (FT.globalDigitPairs digits .t2).total = digits.length / 2 ∧
        (FT.globalDigitPairs digits .t2).rat =
          (if digits.length / 2 = 0 then 0
            else ((FT.globalDigitPairs digits .t2).valid : ℚ) / ((digits.length / 2 : ℕ) : ℚ))) ∧
      ((FT.globalDigitPairs digits .t3).valid =
          Spec.validPairs (FT.pairRules .t3) (FT.countOf digits) ∧
        (FT.globalDigitPairs digits .t3).total = digits.length / 2 ∧
        (FT.globalDigitPairs digits .t3).rat =
          (if digits.length / 2 = 0 then 0
            else ((FT.globalDigitPairs digits .t3).valid : ℚ) / ((digits.length / 2 : ℕ) : ℚ))) ∧
      ((FT.globalDigitPairs digits .t4).valid =
          Spec.validPairs (FT.pairRules .t4) (FT.countOf digits) ∧
        (FT.globalDigitPairs digits .t4).total = digits.length / 2 ∧
        (FT.globalDigitPairs digits .t4).rat =
          (if digits.length / 2 = 0 then 0
            else ((FT.globalDigitPairs digits .t4).valid : ℚ) / ((digits.length / 2 : ℕ) : ℚ))) := by
  intro digits
  have h2 := runRules_eq (FT.pairRules .t2) (0, FT.countOf digits)
  have h3 := runRules_eq (FT.pairRules .t3) (0, FT.countOf digits)
  have h4 := runRules_eq (FT.pairRules .t4) (0, FT.countOf digits)
  rw [zero_add] at h2 h3 h4
  refine ⟨⟨?_, ?_, ?_⟩, ⟨?_, ?_, ?_⟩, ⟨?_, ?_, ?_⟩⟩ <;>
    simp only [FT.globalDigitPairs, h2, h3, h4]

/-- Every branch of `_analyze_track` stores a `global_digit_pairs`
entry in its result, so the key test of `_calculate_symmetry` always
succeeds on its outputs. -/
theorem analyzeTrack_globalPairs_isSome (seq : List ℕ) (tr : FT.Track) :
    (FT.analyzeTrack seq tr).globalPairs.isSome = true := by
  unfold FT.analyzeTrack
  split
  · rfl
  · cases tr <;> rfl

/-- For track 1 the stored `global_digit_pairs` entry is the
zero-filled record in both branches of `_analyze_track`. -/
theorem analyzeTrack_t1_globalPairs (seq : List ℕ) :
    (FT.analyzeTrack seq .t1).globalPairs = some FT.zeroGlobal := by
  unfold FT.analyzeTrack
  split <;> rfl

/-- Counterexample to claim C5: `_calculate_symmetry` on two attribute
track results (built by `_analyze_track` from the first twelve digits
of π and from twelve ones) does not equal the mean of the
state-pairing and yang-percent similarity terms — the global term is
not omitted for the attribute track. -/
theorem c5_counterexample :
    (FT.calcSymmetry (FT.analyzeTrack exSeqPi .t1)
          (FT.analyzeTrack exSeqOnes .t1)).overallSymmetry ≠
      ((FT.calcSymmetry (FT.analyzeTrack exSeqPi .t1)
            (FT.analyzeTrack exSeqOnes .t1)).pairRatioSim +
          (FT.calcSymmetry (FT.analyzeTrack exSeqPi .t1)
              (FT.analyzeTrack exSeqOnes .t1)).yangPercentSim) / 2 := by
  have hpi2 : ¬exSeqPi.length < 2 := by decide
  have hon2 : ¬exSeqOnes.length < 2 := by decide
  have hA : (FT.analyzeTrack exSeqPi .t1).symbolPairs.rat = 1 / 8 := by
    unfold FT.analyzeTrack
    rw [if_neg hpi2]
    have hv : FT.track1Valid exSeqPi = 1 := by decide
    have ht : FT.track1Total exSeqPi = 8 := by decide
    simp [hv, ht]
  have hB : (FT.analyzeTrack exSeqOnes .t1).symbolPairs.rat = 0 := by
    unfold FT.analyzeTrack
    rw [if_neg hon2]
    have hv : FT.track1Valid exSeqOnes = 0 := by decide
    have ht : FT.track1Total exSeqOnes = 8 := by decide
    simp [hv, ht]
  have hyA : (FT.analyzeTrack exSeqPi .t1).yinyang.yangPercent = 5 / 6 := by
    unfold FT.analyzeTrack
    rw [if_neg hpi2]
    have hy : FT.yangCount exSeqPi .t1 = 10 := by decide
    have hl : exSeqPi.length = 12 := by decide
    show (FT.calcYinyang exSeqPi .t1).yangPercent = 5 / 6
    simp only [FT.calcYinyang, hy, hl]
    norm_num
  have hyB : (FT.analyzeTrack exSeqOnes .t1).yinyang.yangPercent = 1 := by
    unfold FT.analyzeTrack
    rw [if_neg hon2]
    have hy : FT.yangCount exSeqOnes .t1 = 12 := by decide
    have hl : exSeqOnes.length = 12 := by decide
    show (FT.calcYinyang exSeqOnes .t1).yangPercent = 1
    simp only [FT.calcYinyang, hy, hl]
    norm_num
  have hg1 := analyzeTrack_t1_globalPairs exSeqPi
  have hg2 := analyzeTrack_t1_globalPairs exSeqOnes
  simp only [FT.calcSymmetry, hg1, hg2, Option.isSome_some, FT.optGlobalRat,
    hA, hB, hyA, hyB, FT.zeroGlobal, FT.simClamp]
  norm_num [abs_of_nonneg, abs_of_nonpos]

/-- Claim C5 as amended: the per-track symmetry score is the mean of
all three similarity terms for every track; for the attribute track
the global-pairing term is not omitted but included, computed from the
zero-filled global results of both directions (hence equal to 1). -/
theorem c5_symmetry_amended :
    ∀ (s1 s2 : List ℕ) (tr : FT.Track),
      (FT.calcSymmetry (FT.analyzeTrack s1 tr)
            (FT.analyzeTrack s2 tr)).overallSymmetry =
        ((FT.calcSymmetry (FT.analyzeTrack s1 tr)
              (FT.analyzeTrack s2 tr)).pairRatioSim +
            (FT.calcSymmetry (FT.analyzeTrack s1 tr)
                (FT.analyzeTrack s2 tr)).globalRatioSim +
            (FT.calcSymmetry (FT.analyzeTrack s1 tr)
                (FT.analyzeTrack s2 tr)).yangPercentSim) / 3 ∧
      (FT.calcSymmetry (FT.analyzeTrack s1 .t1)
          (FT.analyzeTrack s2 .t1)).globalRatioSim = 1 := by
  intro s1 s2 tr
  constructor
  · have h1 := analyzeTrack_globalPairs_isSome s1 tr
    have h2 := analyzeTrack_globalPairs_isSome s2 tr
    simp only [FT.calcSymmetry]
    rw [if_pos ⟨h1, h2⟩]
  · simp [FT.calcSymmetry, analyzeTrack_t1_globalPairs, FT.optGlobalRat,
      FT.zeroGlobal, FT.simClamp]

/-- No stride-1 window of length 12 exists in a sequence shorter than
12 digits. -/
theorem track1Windows_nil (seq : List ℕ) (h : seq.length < 12) :
    FT.track1Windows seq = [] := by
  unfold FT.track1Windows
  rw [List.filter_eq_nil_iff]
  intro w hw
  simp only [List.mem_map, List.mem_range] at hw
  obtain ⟨i, _, rfl⟩ := hw
  simp only [decide_eq_true_eq, List.length_take, List.length_drop]
  omega

/-- Counterexample to claim C7: the empty sequence fails
`validate_input` and `analyze` returns the error response instead of
zeroed results, and a 2-digit sequence gets a nonzero global pairing
result `{1, 1, 1.0}` rather than all zeros. -/
theorem c7_counterexample :
    FT.analyze [] = Except.error "输入验证失败" ∧
      (FT.analyzeTrack [1, 8] .t2).globalPairs.map
          (fun g => (g.valid, g.total)) = some (1, 1) := by
  constructor
  · rfl
  · decide

/-- Claim C7 as amended: for sequences shorter than 12 digits the
windowed state pairing is the all-zero result (no window fits), but
the analysis is not all zeros — the empty sequence fails input
validation and yields an error response, and the alphabet tracks'
global pairing is still computed over the short sequence and can be
nonzero. -/
theorem c7_short_input_amended :
    (∀ (digits : List ℕ) (tr : FT.Track), digits.length < 12 →
        (FT.analyzeTrack digits tr).symbolPairs = FT.zeroPair ∧
          (FT.analyzeTrack digits tr).windowCount = 0) ∧
      FT.analyze [] = Except.error "输入验证失败" ∧
      (FT.analyzeTrack [1, 8] .t2).globalPairs.map
          (fun g => (g.valid, g.total)) = some (1, 1) := by
  refine ⟨?_, rfl, by decide⟩
  intro digits tr h
  unfold FT.analyzeTrack
  by_cases h2 : digits.length < 2
  · simp [h2]
  · rw [if_neg h2]
    have hv : FT.track1Valid digits = 0 := by
      unfold FT.track1Valid
      rw [track1Windows_nil digits h]
      rfl
    have ht : FT.track1Total digits = 0 := by
      unfold FT.track1Total
      rw [track1Windows_nil digits h]
      rfl
    cases tr
    · constructor <;>
        simp [hv, ht, FT.zeroPair, track1Windows_nil digits h]
    · exact ⟨rfl, rfl⟩
    · exact ⟨rfl, rfl⟩
    · exact ⟨rfl, rfl⟩

/-- Witness for C7 (amended): the short sequence `[1,2,3]` on the
attribute track. -/
theorem c7_short_input_amended_witness :
    (([1, 2, 3] : List ℕ).length < 12) ∧
      (FT.analyzeTrack [1, 2, 3] .t1).symbolPairs = FT.zeroPair ∧
      (FT.analyzeTrack [1, 2, 3] .t1).windowCount = 0 :=
  ⟨by decide, c7_short_input_amended.1 [1, 2, 3] .t1 (by decide)⟩

/-- A symbol of a track's yang class is never in its yin class. -/
theorem yang_not_yin (tr : FT.Track) (s : Char)
    (h : (FT.yangSet tr).contains s = true) :
    (FT.yinSet tr).contains s = false := by
  cases tr
  case t1 => simp [FT.yangSet] at h
  case t2 =>
    have hm : s = 'A' ∨ s = 'C' ∨ s = 'E' := by simpa [FT.yangSet] using h
    rcases hm with rfl | rfl | rfl <;> decide
  case t3 =>
    have hm : s = '甲' ∨ s = '丙' ∨ s = '戊' := by simpa [FT.yangSet] using h
    rcases hm with rfl | rfl | rfl <;> decide
  case t4 =>
    have hm : s = '己' ∨ s = '辛' ∨ s = '癸' := by simpa [FT.yangSet] using h
    rcases hm with rfl | rfl | rfl <;> decide

/-- Counterexample to claim C10: the all-yang one-digit sequence `[1]`
is non-empty, yet the analysis output's `yinyang_ratio` is the
zero-filled `0`, not `inf` — the short-sequence branch of
`_analyze_track` never invokes the polarity computation. -/
theorem c10_counterexample :
    ([1] : List ℕ) ≠ [] ∧
      (∀ d ∈ ([1] : List ℕ), isYangDigit .t2 d = true) ∧
      (FT.fingerprintForward (FT.analyzeTrack [1] .t2)).yinyangRat ≠
        FT.ExtQ.inf := by
  decide

/-- An all-yang sequence has yin count zero on every track. -/
theorem yinCount_eq_zero (digits : List ℕ) (tr : FT.Track)
    (h : ∀ d ∈ digits, isYangDigit tr d = true) :
    FT.yinCount digits tr = 0 := by
  cases tr
  · have h0 : digits.countP (fun d => decide (1 ≤ d ∧ d ≤ 7)) = digits.length :=
      List.countP_eq_length.mpr (fun d hd => by
        have := h d hd
        simpa [isYangDigit] using this)
    simp only [FT.yinCount, FT.yangCount]
    rw [h0, Nat.sub_self]
  case t2 | t3 | t4 =>
    all_goals
      simp only [FT.yinCount]
      rw [List.countP_eq_zero]
      intro s hs
      simp only [List.mem_map] at hs
      obtain ⟨d, hd, rfl⟩ := hs
      have hy := h d hd
      simp only [isYangDigit] at hy
      have hyn := yang_not_yin _ _ hy
      simpa using hyn

/-- The polarity computation returns the unbounded ratio on any
all-yang sequence. -/
theorem calcYinyang_rat_inf (digits : List ℕ) (tr : FT.Track)
    (h : ∀ d ∈ digits, isYangDigit tr d = true) :
    (FT.calcYinyang digits tr).rat = FT.ExtQ.inf := by
  simp [FT.calcYinyang, yinCount_eq_zero digits tr h]

/-- Claim C10 as amended: on a sequence whose symbols are all in a
track's yang class, `_calculate_yinyang` returns the unbounded ratio
`inf`, and for sequences of length at least 2 this value propagates
unchanged into the `yinyang_ratio` field of the track's fingerprint;
a length-1 all-yang sequence instead hits the short-sequence branch,
whose zero-filled polarity result (ratio 0) reaches the fingerprint. -/
theorem c10_yinyang_inf :
    ∀ (digits : List ℕ) (tr : FT.Track),
      (∀ d ∈ digits, isYangDigit tr d = true) →
      (FT.calcYinyang digits tr).rat = FT.ExtQ.inf ∧
        (2 ≤ digits.length →
          (FT.fingerprintForward (FT.analyzeTrack digits tr)).yinyangRat =
            FT.ExtQ.inf) := by
  intro digits tr h
  refine ⟨calcYinyang_rat_inf digits tr h, ?_⟩
  intro hlen
  have hyy : (FT.analyzeTrack digits tr).yinyang = FT.calcYinyang digits tr := by
    unfold FT.analyzeTrack
    rw [if_neg (by omega)]
    cases tr <;> rfl
  show (FT.analyzeTrack digits tr).yinyang.rat = FT.ExtQ.inf
  rw [hyy]
  exact calcYinyang_rat_inf digits tr h

/-- Witness for C10 (amended): the all-yang sequence `[1,1]` on
track 2. -/
theorem c10_yinyang_inf_witness :
    (∀ d ∈ ([1, 1] : List ℕ), isYangDigit .t2 d = true) ∧
      (2 ≤ ([1, 1] : List ℕ).length) ∧
      (FT.calcYinyang [1, 1] .t2).rat = FT.ExtQ.inf ∧
      (FT.fingerprintForward (FT.analyzeTrack [1, 1] .t2)).yinyangRat =
        FT.ExtQ.inf :=
  ⟨by decide, by decide, (c10_yinyang_inf [1, 1] .t2 (by decide)).1,
    (c10_yinyang_inf [1, 1] .t2 (by decide)).2 (by decide)⟩

/-- A sum of four squares that is not positive forces every summand
to vanish. -/
theorem sum_sq_zero (a b c d : ℚ) (h : a * a + b * b + c * c + d * d ≤ 0) :
    a = 0 ∧ b = 0 ∧ c = 0 ∧ d = 0 := by
  have e1 := mul_self_nonneg a
  have e2 := mul_self_nonneg b
  have e3 := mul_self_nonneg c
  have e4 := mul_self_nonneg d
  refine ⟨?_, ?_, ?_, ?_⟩ <;> nlinarith

/-- Counterexample to claim C3: on the 15-digit sequence `exSeq15`
the squared-delta sum of `core_engine.calculate_Omega` is `1/4`, so
the reported `Omega` — the raw square root multiplied by
`omega_amplifier = 1.5` — differs from `sqrt(Σ ΔR²)`. -/
theorem c3_counterexample :
    (CE.omegaAmplifier : ℝ) * Real.sqrt ((CE.deltaSquares exSeq15 : ℚ) : ℝ) ≠
      Real.sqrt ((CE.deltaSquares exSeq15 : ℚ) : ℝ) := by
  have hfb : CE.getBlocks exSeq15 = [[2, 1, 6, 1, 8, 7, 9, 5, 2, 5, 8, 9]] := by
    decide
  have hbb : CE.backwardBlocks exSeq15 = [[3, 4, 0, 9, 8, 5, 2, 5, 9, 7, 8, 1]] := by
    decide
  have h1 : CE.blockValid CE.sizeBits [2, 1, 6, 1, 8, 7, 9, 5, 2, 5, 8, 9] = 0 := by
    decide
  have h2 : CE.blockValid CE.positionBits [2, 1, 6, 1, 8, 7, 9, 5, 2, 5, 8, 9] = 0 := by
    decide
  have h3 : CE.blockValid CE.parityBits [2, 1, 6, 1, 8, 7, 9, 5, 2, 5, 8, 9] = 0 := by
    decide
  have h4 : CE.blockValid CE.abBits [2, 1, 6, 1, 8, 7, 9, 5, 2, 5, 8, 9] = 1 := by
    decide
  have h5 : CE.blockValid CE.sizeBits [3, 4, 0, 9, 8, 5, 2, 5, 9, 7, 8, 1] = 0 := by
    decide
  have h6 : CE.blockValid CE.positionBits [3, 4, 0, 9, 8, 5, 2, 5, 9, 7, 8, 1] = 0 := by
    decide
  have h7 : CE.blockValid CE.parityBits [3, 4, 0, 9, 8, 5, 2, 5, 9, 7, 8, 1] = 1 := by
    decide
  have h8 : CE.blockValid CE.abBits [3, 4, 0, 9, 8, 5, 2, 5, 9, 7, 8, 1] = 1 := by
    decide
  have hds : CE.deltaSquares exSeq15 = 1 / 4 := by
    simp only [CE.deltaSquares, CE.dimensionFns, CE.deltaR, CE.Rdim, hfb, hbb,
      List.map_cons, List.map_nil, List.sum_cons, List.sum_nil,
      h1, h2, h3, h4, h5, h6, h7, h8]
    norm_num
  rw [hds]
  have hq : (((1 : ℚ) / 4 : ℚ) : ℝ) = 1 / 4 := by norm_num
  rw [hq]
  have hs : Real.sqrt (1 / 4) = 1 / 2 := by
    rw [show (1 : ℝ) / 4 = (1 / 2) ^ 2 by norm_num]
    exact Real.sqrt_sq (by norm_num)
  rw [hs]
  norm_num [CE.omegaAmplifier]

/-- Claim C3 as amended: in `fd_jtms_v5.analyze` the Omega scalar is
exactly `sqrt(Σ ΔR_i²)` over the four dimensions with
`ΔR = |R_forward − R_backward|`; in `core_engine.calculate_Omega` the
reported `Omega` is that square root multiplied by the amplifier 1.5
(the unamplified value is kept as `raw_Omega`).  In both variants the
value is nonnegative, and zero exactly when every dimension's forward
and backward ratios coincide. -/
theorem c3_omega_amended :
    ∀ digits : List ℕ,
      FD.deltaSquares digits =
          FD.deltaR digits CE.sizeBits * FD.deltaR digits CE.sizeBits +
            FD.deltaR digits CE.positionBits * FD.deltaR digits CE.positionBits +
            FD.deltaR digits CE.parityBits * FD.deltaR digits CE.parityBits +
            FD.deltaR digits FD.abBits * FD.deltaR digits FD.abBits ∧
        0 ≤ Real.sqrt ((FD.deltaSquares digits : ℚ) : ℝ) ∧
        (Real.sqrt ((FD.deltaSquares digits : ℚ) : ℝ) = 0 ↔
          (FD.Rforward digits CE.sizeBits = FD.Rbackward digits CE.sizeBits ∧
            FD.Rforward digits CE.positionBits = FD.Rbackward digits CE.positionBits ∧
            FD.Rforward digits CE.parityBits = FD.Rbackward digits CE.parityBits ∧
            FD.Rforward digits FD.abBits = FD.Rbackward digits FD.abBits)) ∧
        0 ≤ (CE.omegaAmplifier : ℝ) * Real.sqrt ((CE.deltaSquares digits : ℚ) : ℝ) ∧
        ((CE.omegaAmplifier : ℝ) * Real.sqrt ((CE.deltaSquares digits : ℚ) : ℝ) = 0 ↔
          (CE.Rdim (CE.getBlocks digits) CE.sizeBits =
              CE.Rdim (CE.backwardBlocks digits) CE.sizeBits ∧
            CE.Rdim (CE.getBlocks digits) CE.positionBits =
              CE.Rdim (CE.backwardBlocks digits) CE.positionBits ∧
            CE.Rdim (CE.getBlocks digits) CE.parityBits =
              CE.Rdim (CE.backwardBlocks digits) CE.parityBits ∧
            CE.Rdim (CE.getBlocks digits) CE.abBits =
              CE.Rdim (CE.backwardBlocks digits) CE.abBits)) := by
  intro digits
  have hfd : FD.deltaSquares digits =
      FD.deltaR digits CE.sizeBits * FD.deltaR digits CE.sizeBits +
        FD.deltaR digits CE.positionBits * FD.deltaR digits CE.positionBits +
        FD.deltaR digits CE.parityBits * FD.deltaR digits CE.parityBits +
        FD.deltaR digits FD.abBits * FD.deltaR digits FD.abBits := by
    simp only [FD.deltaSquares, FD.dimensionFns, List.map_cons, List.map_nil,
      List.sum_cons, List.sum_nil]
    ring
  have hce : CE.deltaSquares digits =
      CE.deltaR digits CE.sizeBits * CE.deltaR digits CE.sizeBits +
        CE.deltaR digits CE.positionBits * CE.deltaR digits CE.positionBits +
        CE.deltaR digits CE.parityBits * CE.deltaR digits CE.parityBits +
        CE.deltaR digits CE.abBits * CE.deltaR digits CE.abBits := by
    simp only [CE.deltaSquares, CE.dimensionFns, List.map_cons, List.map_nil,
      List.sum_cons, List.sum_nil]
    ring
  have hampl : (CE.omegaAmplifier : ℝ) ≠ 0 := by
    norm_num [CE.omegaAmplifier]
  have hfdzero :
      Real.sqrt ((FD.deltaSquares digits : ℚ) : ℝ) = 0 ↔
        (FD.deltaR digits CE.sizeBits = 0 ∧
          FD.deltaR digits CE.positionBits = 0 ∧
          FD.deltaR digits CE.parityBits = 0 ∧
          FD.deltaR digits FD.abBits = 0) := by
    rw [Real.sqrt_eq_zero']
    constructor
    · intro h
      have hq : FD.deltaSquares digits ≤ 0 := by exact_mod_cast h
      rw [hfd] at hq
      exact sum_sq_zero _ _ _ _ hq
    · intro ⟨z1, z2, z3, z4⟩
      have hq : FD.deltaSquares digits = 0 := by
        rw [hfd, z1, z2, z3, z4]
        ring
      rw [hq]
      norm_num
  have hcezero :
      Real.sqrt ((CE.deltaSquares digits : ℚ) : ℝ) = 0 ↔
        (CE.deltaR digits CE.sizeBits = 0 ∧
          CE.deltaR digits CE.positionBits = 0 ∧
          CE.deltaR digits CE.parityBits = 0 ∧
          CE.deltaR digits CE.abBits = 0) := by
    rw [Real.sqrt_eq_zero']
    constructor
    · intro h
      have hq : CE.deltaSquares digits ≤ 0 := by exact_mod_cast h
      rw [hce] at hq
      exact sum_sq_zero _ _ _ _ hq
    · intro ⟨z1, z2, z3, z4⟩
      have hq : CE.deltaSquares digits = 0 := by
        rw [hce, z1, z2, z3, z4]
        ring
      rw [hq]
      norm_num
  have habsiff : ∀ x y : ℚ, |x - y| = 0 ↔ x = y := by
    intro x y
    rw [abs_eq_zero, sub_eq_zero]
  refine ⟨hfd, Real.sqrt_nonneg _, ?_, ?_, ?_⟩
  · rw [hfdzero]
    unfold FD.deltaR
    rw [habsiff, habsiff, habsiff, habsiff]
  · have := Real.sqrt_nonneg ((CE.deltaSquares digits : ℚ) : ℝ)
    have h32 : (0 : ℝ) ≤ (CE.omegaAmplifier : ℝ) := by
      norm_num [CE.omegaAmplifier]
    positivity
  · rw [mul_eq_zero, or_iff_right hampl, hcezero]
    unfold CE.deltaR
    rw [habsiff, habsiff, habsiff, habsiff]

/-- Updating one digit's count inside the 0–9 window changes the
window sum by the difference of the values. -/
theorem sum_update_range10 (f : ℕ → ℕ) (d v : ℕ) (hd : d < 10) :
    (∑ x ∈ Finset.range 10, Function.update f d v x) + f d =
      (∑ x ∈ Finset.range 10, f x) + v := by
  have hm : d ∈ Finset.range 10 := Finset.mem_range.mpr hd
  rw [Finset.sum_update_of_mem hm, Finset.sum_eq_sum_diff_singleton_add hm f]
  omega

/-- One pairing-loop step preserves `2·valid + Σ remaining` when the
rule's digits lie in 0–9. -/
theorem applyRule_invariant (st : ℕ × (ℕ → ℕ)) (r : ℕ × ℕ)
    (h1 : r.1 < 10) (h2 : r.2 < 10) :
    2 * (FT.applyRule st r).1 + ∑ x ∈ Finset.range 10, (FT.applyRule st r).2 x =
      2 * st.1 + ∑ x ∈ Finset.range 10, st.2 x := by
  unfold FT.applyRule
  by_cases heq : r.1 = r.2
  · simp only [if_pos heq]
    by_cases hpc : 0 < st.2 r.1 / 2
    · simp only [if_pos hpc]
      have hle : st.2 r.1 / 2 * 2 ≤ st.2 r.1 := Nat.div_mul_le_self _ _
      have hs := sum_update_range10 st.2 r.1 (st.2 r.1 - st.2 r.1 / 2 * 2) h1
      have hmem : st.2 r.1 ≤ ∑ x ∈ Finset.range 10, st.2 x :=
        Finset.single_le_sum (fun i _ => Nat.zero_le _) (Finset.mem_range.mpr h1)
      omega
    · simp only [if_neg hpc]
  · simp only [if_neg heq]
    by_cases hpc : 0 < min (st.2 r.1) (st.2 r.2)
    · simp only [if_pos hpc]
      have ha : min (st.2 r.1) (st.2 r.2) ≤ st.2 r.1 := Nat.min_le_left _ _
      have hb : min (st.2 r.1) (st.2 r.2) ≤ st.2 r.2 := Nat.min_le_right _ _
      have hs1 := sum_update_range10 st.2 r.1
        (st.2 r.1 - min (st.2 r.1) (st.2 r.2)) h1
      have hgf : Function.update st.2 r.1
          (st.2 r.1 - min (st.2 r.1) (st.2 r.2)) r.2 = st.2 r.2 :=
        Function.update_noteq (fun hh => heq hh.symm) _ _
      have hs2 := sum_update_range10
        (Function.update st.2 r.1 (st.2 r.1 - min (st.2 r.1) (st.2 r.2))) r.2
        (st.2 r.2 - min (st.2 r.1) (st.2 r.2)) h2
      rw [hgf] at hs2
      omega
    · simp only [if_neg hpc]

/-- The whole pairing loop preserves `2·valid + Σ remaining` for rule
lists over the digits 0–9. -/
theorem runRules_invariant :
    ∀ rules : List (ℕ × ℕ), (∀ r ∈ rules, r.1 < 10 ∧ r.2 < 10) →
      ∀ st : ℕ × (ℕ → ℕ),
        2 * (FT.runRules rules st).1 +
            ∑ x ∈ Finset.range 10, (FT.runRules rules st).2 x =
          2 * st.1 + ∑ x ∈ Finset.range 10, st.2 x := by
  intro rules
  induction rules with
  | nil => intro _ st; rfl
  | cons r rs ih =>
    intro h st
    have hr := h r (List.mem_cons_self r rs)
    have hrs : ∀ q ∈ rs, q.1 < 10 ∧ q.2 < 10 :=
      fun q hq => h q (List.mem_cons_of_mem r hq)
    have hunf : FT.runRules (r :: rs) st = FT.runRules rs (FT.applyRule st r) := rfl
    rw [hunf, ih hrs (FT.applyRule st r), applyRule_invariant st r hr.1 hr.2]

/-- The counts of the digits 0–9 sum to at most the sequence length. -/
theorem countOf_sum_le (digits : List ℕ) :
    (∑ x ∈ Finset.range 10, FT.countOf digits x) ≤ digits.length := by
  induction digits with
  | nil => simp [FT.countOf]
  | cons a l ih =>
    have hx : ∀ x, FT.countOf (a :: l) x = FT.countOf l x + if a = x then 1 else 0 := by
      intro x
      simp [FT.countOf, List.count_cons]
    calc (∑ x ∈ Finset.range 10, FT.countOf (a :: l) x)
        = (∑ x ∈ Finset.range 10, (FT.countOf l x + if a = x then 1 else 0)) :=
          Finset.sum_congr rfl (fun x _ => hx x)
      _ = (∑ x ∈ Finset.range 10, FT.countOf l x) +
            (∑ x ∈ Finset.range 10, if a = x then 1 else 0) :=
          Finset.sum_add_distrib
      _ ≤ l.length + 1 := by
          have h1 : (∑ x ∈ Finset.range 10, if a = x then (1:ℕ) else 0) ≤ 1 := by
            rw [Finset.sum_ite_eq]
            split <;> norm_num
          omega
      _ = (a :: l).length := by simp

/-- The pairing loop never forms more than `N // 2` pairs. -/
theorem runRules_le (rules : List (ℕ × ℕ))
    (h : ∀ r ∈ rules, r.1 < 10 ∧ r.2 < 10) (digits : List ℕ) :
    (FT.runRules rules (0, FT.countOf digits)).1 ≤ digits.length / 2 := by
  have hinv := runRules_invariant rules h (0, FT.countOf digits)
  have hp2 : ((0 : ℕ), FT.countOf digits).2 = FT.countOf digits := rfl
  have hp1 : ((0 : ℕ), FT.countOf digits).1 = 0 := rfl
  simp only [hp1, hp2] at hinv
  have hsum := countOf_sum_le digits
  have h2 : (FT.runRules rules (0, FT.countOf digits)).1 * 2 ≤ digits.length := by
    omega
  exact (Nat.le_div_iff_mul_le (by norm_num)).mpr h2

/-- The `0/0 = 0` ratio of a `valid ≤ total` pair lies in `[0,1]`. -/
theorem ratioIte_bounds (v t : ℕ) (h : v ≤ t) :
    0 ≤ (if t = 0 then (0:ℚ) else (v:ℚ) / t) ∧
      (if t = 0 then (0:ℚ) else (v:ℚ) / t) ≤ 1 := by
  split
  · exact ⟨le_refl 0, zero_le_one⟩
  · next ht =>
    have ht0 : 0 < (t:ℚ) := by exact_mod_cast Nat.pos_of_ne_zero ht
    constructor
    · positivity
    · rw [div_le_one ht0]
      exact_mod_cast h

/-- The global pairing forms at most `total_pairs` pairs. -/
theorem globalDigitPairs_le (digits : List ℕ) (tr : FT.Track) :
    (FT.globalDigitPairs digits tr).valid ≤ (FT.globalDigitPairs digits tr).total := by
  cases tr
  case t1 => exact le_refl 0
  case t2 =>
    simp only [FT.globalDigitPairs]
    exact runRules_le (FT.pairRules .t2) (by decide) digits
  case t3 =>
    simp only [FT.globalDigitPairs]
    exact runRules_le (FT.pairRules .t3) (by decide) digits
  case t4 =>
    simp only [FT.globalDigitPairs]
    exact runRules_le (FT.pairRules .t4) (by decide) digits

/-- The global pairing ratio lies in `[0,1]`. -/
theorem globalDigitPairs_rat_bounds (digits : List ℕ) (tr : FT.Track) :
    0 ≤ (FT.globalDigitPairs digits tr).rat ∧
      (FT.globalDigitPairs digits tr).rat ≤ 1 := by
  cases tr
  case t1 => exact ⟨le_refl 0, zero_le_one⟩
  case t2 =>
    simp only [FT.globalDigitPairs]
    exact ratioIte_bounds _ _ (runRules_le (FT.pairRules .t2) (by decide) digits)
  case t3 =>
    simp only [FT.globalDigitPairs]
    exact ratioIte_bounds _ _ (runRules_le (FT.pairRules .t3) (by decide) digits)
  case t4 =>
    simp only [FT.globalDigitPairs]
    exact ratioIte_bounds _ _ (runRules_le (FT.pairRules .t4) (by decide) digits)

/-- Each window contributes at most as many valid pairings as
attempts. -/
theorem track1WindowCounts_le (w : List ℕ) :
    (FT.track1WindowCounts w).1 ≤ (FT.track1WindowCounts w).2 := by
  unfold FT.track1WindowCounts
  simp only [List.map_cons, List.map_nil, List.sum_cons, List.sum_nil,
    List.length_cons, List.length_nil]
  split_ifs <;> norm_num

/-- The accumulated track 1 valid count never exceeds the attempt
count. -/
theorem track1Valid_le (seq : List ℕ) : FT.track1Valid seq ≤ FT.track1Total seq := by
  unfold FT.track1Valid FT.track1Total
  exact List.sum_le_sum (fun w _ => track1WindowCounts_le w)

/-- The per-track symbol pairing result satisfies `valid ≤ total` with
ratio in `[0,1]`. -/
theorem analyzeTrack_symbolPairs_bounds (digits : List ℕ) (tr : FT.Track) :
    (FT.analyzeTrack digits tr).symbolPairs.valid ≤
        (FT.analyzeTrack digits tr).symbolPairs.total ∧
      0 ≤ (FT.analyzeTrack digits tr).symbolPairs.rat ∧
      (FT.analyzeTrack digits tr).symbolPairs.rat ≤ 1 := by
  unfold FT.analyzeTrack
  split
  · exact ⟨le_refl 0, le_refl 0, zero_le_one⟩
  · cases tr
    case t1 =>
      exact ⟨track1Valid_le digits,
        (ratioIte_bounds _ _ (track1Valid_le digits)).1,
        (ratioIte_bounds _ _ (track1Valid_le digits)).2⟩
    case t2 => exact ⟨le_refl 0, le_refl 0, zero_le_one⟩
    case t3 => exact ⟨le_refl 0, le_refl 0, zero_le_one⟩
    case t4 => exact ⟨le_refl 0, le_refl 0, zero_le_one⟩

/-- The similarity clamp of a nonnegative difference lies in `[0,1]`. -/
theorem simClamp_bounds (d : ℚ) (hd : 0 ≤ d) :
    0 ≤ FT.simClamp d ∧ FT.simClamp d ≤ 1 := by
  unfold FT.simClamp
  split
  · next h => constructor <;> linarith
  · exact ⟨le_refl 0, zero_le_one⟩

/-- All similarity fields of `_calculate_symmetry` lie in `[0,1]`. -/
theorem calcSymmetry_bounds (f b : FT.TrackResult) :
    (0 ≤ (FT.calcSymmetry f b).pairRatioSim ∧
        (FT.calcSymmetry f b).pairRatioSim ≤ 1) ∧
      (0 ≤ (FT.calcSymmetry f b).globalRatioSim ∧
        (FT.calcSymmetry f b).globalRatioSim ≤ 1) ∧
      (0 ≤ (FT.calcSymmetry f b).yangPercentSim ∧
        (FT.calcSymmetry f b).yangPercentSim ≤ 1) ∧
      (0 ≤ (FT.calcSymmetry f b).overallSymmetry ∧
        (FT.calcSymmetry f b).overallSymmetry ≤ 1) := by
  have hp := simClamp_bounds _ (abs_nonneg (f.symbolPairs.rat - b.symbolPairs.rat))
  have hg := simClamp_bounds _
    (abs_nonneg (FT.optGlobalRat f.globalPairs - FT.optGlobalRat b.globalPairs))
  have hy := simClamp_bounds _
    (abs_nonneg (f.yinyang.yangPercent - b.yinyang.yangPercent))
  have eov : (FT.calcSymmetry f b).overallSymmetry =
      if f.globalPairs.isSome ∧ b.globalPairs.isSome then
        ((FT.calcSymmetry f b).pairRatioSim + (FT.calcSymmetry f b).globalRatioSim +
            (FT.calcSymmetry f b).yangPercentSim) / 3
      else ((FT.calcSymmetry f b).pairRatioSim +
          (FT.calcSymmetry f b).yangPercentSim) / 2 := rfl
  have ep : (FT.calcSymmetry f b).pairRatioSim =
      FT.simClamp |f.symbolPairs.rat - b.symbolPairs.rat| := rfl
  have eg : (FT.calcSymmetry f b).globalRatioSim =
      FT.simClamp |FT.optGlobalRat f.globalPairs - FT.optGlobalRat b.globalPairs| := rfl
  have ey : (FT.calcSymmetry f b).yangPercentSim =
      FT.simClamp |f.yinyang.yangPercent - b.yinyang.yangPercent| := rfl
  refine ⟨ep ▸ hp, eg ▸ hg, ey ▸ hy, ?_⟩
  rw [eov, ep, eg, ey]
  split
  · constructor <;> linarith [hp.1, hp.2, hg.1, hg.2, hy.1, hy.2]
  · constructor <;> linarith [hp.1, hp.2, hy.1, hy.2]

/-- Claim C9: on any input every pairing ratio produced by the
analysis — the windowed state-pairing ratio and the global multiset
pairing ratio — lies in `[0,1]` (in particular the global algorithm
never forms more than `N // 2` pairs, so `valid ≤ total`), and every
symmetry similarity value, including the overall score, lies in
`[0,1]`. -/
theorem c9_ratio_bounds :
    ∀ (digits : List ℕ) (tr : FT.Track) (f b : FT.TrackResult),
      ((FT.analyzeTrack digits tr).symbolPairs.valid ≤
          (FT.analyzeTrack digits tr).symbolPairs.total ∧
        0 ≤ (FT.analyzeTrack digits tr).symbolPairs.rat ∧
        (FT.analyzeTrack digits tr).symbolPairs.rat ≤ 1) ∧
      ((FT.globalDigitPairs digits tr).valid ≤
          (FT.globalDigitPairs digits tr).total ∧
        0 ≤ (FT.globalDigitPairs digits tr).rat ∧
        (FT.globalDigitPairs digits tr).rat ≤ 1) ∧
      (0 ≤ (FT.calcSymmetry f b).pairRatioSim ∧
        (FT.calcSymmetry f b).pairRatioSim ≤ 1) ∧
      (0 ≤ (FT.calcSymmetry f b).globalRatioSim ∧
        (FT.calcSymmetry f b).globalRatioSim ≤ 1) ∧
      (0 ≤ (FT.calcSymmetry f b).yangPercentSim ∧
        (FT.calcSymmetry f b).yangPercentSim ≤ 1) ∧
      (0 ≤ (FT.calcSymmetry f b).overallSymmetry ∧
        (FT.calcSymmetry f b).overallSymmetry ≤ 1) := by
  intro digits tr f b
  have hsym := calcSymmetry_bounds f b
  exact ⟨analyzeTrack_symbolPairs_bounds digits tr,
    ⟨globalDigitPairs_le digits tr,
      (globalDigitPairs_rat_bounds digits tr).1,
      (globalDigitPairs_rat_bounds digits tr).2⟩,
    hsym.1, hsym.2.1, hsym.2.2.1, hsym.2.2.2⟩

end YY
